import Mathlib

/-!
# Dual-Frequency-Alpha: verification of the zone-detection / spectral-analysis core

Shallow embedding of the algorithmic core of the repository:

* `src/Python/FindFlats.py`   — flat-zone detector (rolling std mask, mask
  cleaning, zone extraction / size filtering, interactive threshold checks);
* `src/Python/FindFlats2.py`  — step-zone detector (smoothed absolute
  derivative, auto threshold, de-duplicated transitions, step zones);
* `src/Python/AlphaGUI.py`    — per-zone spectral analysis in
  `AlphaAnalysisApp._confirm` (zone slicing, mean sample spacing, DC removal,
  real FFT, amplitude scaling);
* `src/Python/AlphaGUI(CTK).py` / `src/Python/AlphaAnalysisApp.py` — the
  ELAPSED-mode time normalization in `_process_data`.

Numeric series are modelled over `ℚ` (the Python code computes in double
precision; every claim checked here is about exact structural behaviour, not
rounding).  A pandas value that is `NaN` — an undefined rolling statistic, a
failed `pd.to_numeric` coercion, the mean of an empty array — is modelled as
`none : Option ℚ`, with the pandas comparison semantics (`NaN` compares
`false`) and skip-`NaN` aggregation semantics made explicit at each use site.
The flat detector's rolling standard deviation and the FFT magnitudes live in
`ℝ` (a square root is taken); everything else is computable.
-/

namespace DualFreq

/-! ## Pandas primitives -/

/-- The values a trailing rolling window of size `w` sees at position `i`:
the last `min (i+1) w` entries of `xs.take (i+1)` (pandas
`Series.rolling(window=w)` positions `max(0, i-w+1) .. i`). -/
def windowAt (w : Nat) (xs : List α) (i : Nat) : List α :=
  (xs.take (i + 1)).drop (i + 1 - w)

/-- Trailing rolling mean with `min_periods=1` and pandas skip-`NaN`
semantics: `NaN` (`none`) entries inside the window are excluded; if no
non-`NaN` entry is in the window the result is `NaN` (`none`). -/
def rollingMeanSkipNa (w : Nat) (xs : List (Option ℚ)) : List (Option ℚ) :=
  (List.range xs.length).map (fun i =>
    let vals := (windowAt w xs i).filterMap id
    if vals.length = 0 then none else some (vals.sum / vals.length))

/-- Insert into a sorted list (ascending). -/
def insertQ (x : ℚ) : List ℚ → List ℚ
  | [] => [x]
  | y :: ys => if x ≤ y then x :: y :: ys else y :: insertQ x ys

/-- Insertion sort, ascending. -/
def sortQ : List ℚ → List ℚ
  | [] => []
  | x :: xs => insertQ x (sortQ xs)

/-- `Series.median()` on the given (already `NaN`-free) values: `NaN`
(`none`) for an empty list, the middle element for odd length, the average of
the two middle elements for even length. -/
def pandasMedian (xs : List ℚ) : Option ℚ :=
  let s := sortQ xs
  let n := s.length
  if n = 0 then none
  else if n % 2 = 1 then some (s.getD (n / 2) 0)
  else some ((s.getD (n / 2 - 1) 0 + s.getD (n / 2) 0) / 2)

/-! ## FindFlats2.py — step-zone detector -/

/-- `series.diff().abs()`: `deriv[0] = NaN` (`none`),
`deriv[i] = |value[i] - value[i-1]|` for `i > 0`. -/
def derivAbs (xs : List ℚ) : List (Option ℚ) :=
  (List.range xs.length).map (fun i =>
    match i with
    | 0 => none
    | Nat.succ j => some |xs.getD (j + 1) 0 - xs.getD j 0|)

/-- `smooth = deriv.rolling(window=diff_window, min_periods=1).mean()`. -/
def smoothOf (xs : List ℚ) (dw : Nat) : List (Option ℚ) :=
  rollingMeanSkipNa dw (derivAbs xs)

/-- The threshold `detect_transitions` actually compares against:
the explicit `diff_threshold` when one is passed, otherwise
`smooth.median() * 3` (pandas `median` skips the `NaN` entries of `smooth`;
it is `NaN` — `none` — when every entry is `NaN`). -/
def usedThreshold (xs : List ℚ) (dw : Nat) (t? : Option ℚ) : Option ℚ :=
  match t? with
  | some t => some t
  | none => (pandasMedian ((smoothOf xs dw).filterMap id)).map (fun m => m * 3)

/-- `smooth[smooth > diff_threshold].index`: the positions whose smoothed
derivative strictly exceeds the threshold.  A `NaN` on either side of the
pandas comparison yields `False`, so `NaN` entries (and a `NaN` auto
threshold) select nothing. -/
def edgesOf (xs : List ℚ) (dw : Nat) (t? : Option ℚ) : List Nat :=
  (List.range xs.length).filter (fun i =>
    match (smoothOf xs dw).getD i none, usedThreshold xs dw t? with
    | some v, some t => decide (t < v)
    | _, _ => false)

/-- The de-duplication loop of `detect_transitions`: `last` starts at
`-np.inf` (modelled `none`); an edge index is kept iff `idx - last >
diff_window`, and a kept index becomes the new `last`. -/
def cutsLoop (dw : Nat) : Option Nat → List Nat → List Nat
  | _, [] => []
  | none, idx :: rest => idx :: cutsLoop dw (some idx) rest
  | some last, idx :: rest =>
    if (dw : Int) < (idx : Int) - (last : Int) then
      idx :: cutsLoop dw (some idx) rest
    else
      cutsLoop dw (some last) rest

/-- `detect_transitions(series, diff_window, diff_threshold)` of
`FindFlats2.py`: the sorted list of de-duplicated step indices.
`t? = none` is auto-threshold mode (`diff_threshold=None`). -/
def detect_transitions (xs : List ℚ) (dw : Nat) (t? : Option ℚ) : List Nat :=
  cutsLoop dw none (edgesOf xs dw t?)

/-- `make_step_zones(series, transitions, min_size)` of `FindFlats2.py`:
consecutive pairs of `[0] + transitions + [len(series)]`, keeping a pair
`(a, b)` iff `b - a >= min_size` (Python integer arithmetic, hence the `Int`
comparison). -/
def make_step_zones (xs : List ℚ) (transitions : List Nat) (min_size : Nat) :
    List (Nat × Nat) :=
  let all_pts := 0 :: transitions ++ [xs.length]
  (all_pts.zip all_pts.tail).filter
    (fun p => decide ((min_size : Int) ≤ (p.2 : Int) - (p.1 : Int)))

/-! ## FindFlats.py — flat-zone detector -/

/-- The validation core of `get_user_thresholds` in `FindFlats.py`: the three
checks it performs on a parsed triple before returning it (`window_size < 1`,
`tol < 0` and `min_size < 1` each raise a `ValueError`, reported to the user
as `Invalid input`, and nothing is returned for that attempt). -/
def threshold_checks (w : Int) (tol : ℚ) (ms : Int) :
    Except String (Int × ℚ × Int) :=
  if w < 1 then Except.error "Window size must be >= 1."
  else if tol < 0 then Except.error "Threshold must be >= 0."
  else if ms < 1 then Except.error "Minimum size must be >= 1."
  else Except.ok (w, tol, ms)

/-- `series.rolling(window=w, min_periods=1).std()` on a `NaN`-free series:
the sample standard deviation (`ddof=1`) of the trailing window.  A window
holding a single observation satisfies `min_periods=1` but has zero degrees
of freedom, so its standard deviation is `NaN` (`none`). -/
noncomputable def rollingStd (w : Nat) (xs : List ℚ) : List (Option ℝ) :=
  (List.range xs.length).map (fun i =>
    let vals := windowAt w xs i
    let n := vals.length
    if n < 2 then none
    else
      let μ : ℚ := vals.sum / n
      some (Real.sqrt
        ((((vals.map (fun x => (x - μ) ^ 2)).sum : ℚ) : ℝ) / ((n : ℝ) - 1))))

/-- `detect_flat_mask(series, window_size, tol)` of `FindFlats.py`:
`rolling_std.le(tol).fillna(False)`.  The pandas comparison gives `False`
whenever the rolling standard deviation is `NaN`, and the `fillna(False)`
keeps such entries `False`. -/
noncomputable def detect_flat_mask (xs : List ℚ) (w : Nat) (tol : ℝ) :
    List Bool :=
  (rollingStd w xs).map (fun s? =>
    match s? with
    | none => false
    | some s => decide (s ≤ tol))

/-- Length of the suffix left by `dropWhile` (termination helper). -/
theorem length_dropWhile_le (p : α → Bool) (l : List α) :
    (l.dropWhile p).length ≤ l.length := by
  induction l with
  | nil => simp [List.dropWhile]
  | cons a l ih =>
    by_cases h : p a
    · simp [List.dropWhile, h]; omega
    · simp [List.dropWhile, h]

/-- Pass 1 of `clean_mask` in `FindFlats.py` (fill small holes): scan left to
right; on reaching a `True` block, take the block, then the `False` run that
follows it, flip that run to `True` iff its length is `<= max_hole`, and
continue after the run. -/
def fillHoles (mh : Nat) : List Bool → List Bool
  | [] => []
  | false :: rest => false :: fillHoles mh rest
  | true :: rest =>
    let ones := rest.takeWhile (fun b => b)
    let rest1 := rest.dropWhile (fun b => b)
    let zeros := rest1.takeWhile (fun b => !b)
    let rest2 := rest1.dropWhile (fun b => !b)
    (true :: ones)
      ++ (if zeros.length ≤ mh then List.replicate zeros.length true else zeros)
      ++ fillHoles mh rest2
termination_by l => l.length
decreasing_by
  all_goals
    have h1 := length_dropWhile_le (fun b => !b) (rest.dropWhile (fun b => b))
    have h2 := length_dropWhile_le (fun b => b) rest
    simp only [List.length_cons] at *
    omega

/-- Pass 2 of `clean_mask` in `FindFlats.py` (remove small islands): scan
left to right; a `False` block is skipped; a `True` block is flipped to
`False` iff its length is `<= max_island`. -/
def removeIslands (mi : Nat) : List Bool → List Bool
  | [] => []
  | false :: rest => false :: removeIslands mi rest
  | true :: rest =>
    let ones := rest.takeWhile (fun b => b)
    let rest1 := rest.dropWhile (fun b => b)
    (if ones.length + 1 ≤ mi then List.replicate (ones.length + 1) false
     else true :: ones)
      ++ removeIslands mi rest1
termination_by l => l.length
decreasing_by
  all_goals
    have h2 := length_dropWhile_le (fun b => b) rest
    simp only [List.length_cons] at *
    omega

/-- `clean_mask(mask, max_hole, max_island)` of `FindFlats.py`: the two
passes run in sequence on the same array — island removal operates on the
hole-filled result. -/
def clean_mask (m : List Bool) (mh mi : Nat) : List Bool :=
  removeIslands mi (fillHoles mh m)

/-- The scan of `extract_zones`: `st` is `some start` while inside a `True`
run (`in_zone`), `i` the current index. -/
def extractAux : List Bool → Nat → Option Nat → List (Nat × Nat)
  | [], _, none => []
  | [], i, some s => [(s, i)]
  | true :: rest, i, none => extractAux rest (i + 1) (some i)
  | false :: rest, i, none => extractAux rest (i + 1) none
  | true :: rest, i, some s => extractAux rest (i + 1) (some s)
  | false :: rest, i, some s => (s, i) :: extractAux rest (i + 1) none

/-- `extract_zones(mask)` of `FindFlats.py`: the maximal `True` runs of the
mask as half-open index intervals, a run still open at the end of the series
closing at `len(mask)`. -/
def extract_zones (m : List Bool) : List (Nat × Nat) :=
  extractAux m 0 none

/-- `filter_zones_by_size(zones, min_size)` of `FindFlats.py`: keep the zones
with `end - start >= min_size` (Python integer arithmetic). -/
def filter_zones_by_size (zones : List (Nat × Nat)) (min_size : Nat) :
    List (Nat × Nat) :=
  zones.filter (fun z => decide ((min_size : Int) ≤ (z.2 : Int) - (z.1 : Int)))

/-! ## AlphaGUI.py — spectral analysis of a selected zone -/

/-- The rows of the loaded table that fall inside a selected zone:
`df[(df[elapsed] >= start) & (df[elapsed] <= end)]` (closed interval on the
elapsed-time column; each row pairs an elapsed time with a channel value). -/
def sliceRows (rows : List (ℚ × ℝ)) (a b : ℚ) : List (ℚ × ℝ) :=
  rows.filter (fun r => decide (a ≤ r.1 ∧ r.1 ≤ b))

/-- `dt = np.mean(np.diff(times))`: the mean consecutive spacing.  For a
slice of a single sample `np.diff` is empty and the mean of an empty array is
`NaN` (`none`). -/
def dtOf (ts : List ℚ) : Option ℚ :=
  let ds := (List.range (ts.length - 1)).map
    (fun i => ts.getD (i + 1) 0 - ts.getD i 0)
  if ds.length = 0 then none else some (ds.sum / ds.length)

/-- `np.fft.rfftfreq(n, d)`: `n / 2 + 1` bins, bin `k` at `k / (n * d)`; a
`NaN` spacing makes every bin `NaN` (`none`). -/
def rfftfreq (n : Nat) (d : Option ℚ) : List (Option ℚ) :=
  (List.range (n / 2 + 1)).map
    (fun (k : Nat) => d.map (fun dd => (k : ℚ) / ((n : ℚ) * dd)))

/-- `np.fft.rfft(x)`: the first `n / 2 + 1` coefficients of the discrete
Fourier transform `X[k] = Σ_j x[j]·exp(-2πi·j·k/n)` of a real input of
length `n`. -/
noncomputable def rfft (x : List ℝ) : List ℂ :=
  (List.range (x.length / 2 + 1)).map (fun (k : Nat) =>
    ∑ j ∈ Finset.range x.length,
      (x.getD j 0 : ℂ) *
        Complex.exp (-(2 * (Real.pi : ℂ) * Complex.I * (j : ℂ) * (k : ℂ)) /
          (x.length : ℂ)))

/-- A per-zone spectrum: frequency bins and scaled amplitudes. -/
structure Spectrum where
  freqs : List (Option ℚ)
  amps : List ℝ

/-- The only guard `AlphaAnalysisApp._confirm` has for a degenerate zone:
the empty-slice check (`if zone_df.empty: showerror(...); continue`). -/
inductive ZoneErr where
  | emptyZone
deriving DecidableEq

/-- The per-zone spectral computation of `AlphaAnalysisApp._confirm` in
`AlphaGUI.py` (lines 233–267): slice the table to the zone, guard only
against an empty slice, compute `dt` as the mean sample spacing, remove the
DC component, and return `rfftfreq(N, dt)` with `|rfft(centered)| * 2 / N`. -/
noncomputable def analyze (rows : List (ℚ × ℝ)) (a b : ℚ) :
    Except ZoneErr Spectrum :=
  let zdf := sliceRows rows a b
  if zdf.length = 0 then Except.error ZoneErr.emptyZone
  else
    let ts := zdf.map Prod.fst
    let data := zdf.map Prod.snd
    let dt := dtOf ts
    let n := data.length
    let m := data.sum / (n : ℝ)
    let centered := data.map (fun x => x - m)
    Except.ok ⟨rfftfreq n dt, (rfft centered).map (fun z => Complex.abs z * 2 / (n : ℝ))⟩

/-! ## `_process_data`, ELAPSED mode — time normalization -/

/-- `pd.to_numeric(entry, errors='coerce')` on the raw time strings
considered here: a non-empty digit string coerces to its numeric value, any
other string coerces to `NaN` (`none`). -/
def to_numeric (s : String) : Option ℚ :=
  if s.length ≠ 0 ∧ s.toList.all Char.isDigit then
    some ((s.toList.foldl (fun a c => a * 10 + (c.toNat - 48)) 0 : Nat) : ℚ)
  else none

/-- The ELAPSED branch of `_process_data` in `AlphaGUI(CTK).py` (lines
311–314): coerce the time column with `pd.to_numeric(..., errors='coerce')`,
then `df.dropna(subset=[time_col])` — every row whose time entry failed
coercion is dropped from the whole table, its aligned value entry with it. -/
def elapsed_ctk (raw_time : List String) (values : List ℝ) : List (ℚ × ℝ) :=
  ((raw_time.map to_numeric).zip values).filterMap
    (fun p => p.1.map (fun t => (t, p.2)))

/-- The ELAPSED branch of `_process_data` in `AlphaAnalysisApp.py` (lines
464–467): the time column is coerced with `pd.to_numeric(..., errors='coerce')`
but no `dropna` follows — a failed coercion stays in the table as a `NaN`
(`none`) time entry and its row is kept. -/
def elapsed_app (raw_time : List String) (values : List ℝ) :
    List (Option ℚ × ℝ) :=
  (raw_time.map to_numeric).zip values

/-! ## Shared zone well-formedness -/

/-- The invariants claimed for a zone list produced by one detection pass:
pairwise disjoint (an earlier zone ends no later than a later one starts),
strictly increasing in start index, and every zone at least `min_size`
long. -/
def zonesOK (zs : List (Nat × Nat)) (min_size : Nat) : Prop :=
  List.Pairwise (fun z w => z.2 ≤ w.1) zs ∧
  List.Pairwise (fun z w => z.1 < w.1) zs ∧
  ∀ z ∈ zs, z.1 < z.2 ∧ min_size ≤ z.2 - z.1

/-- Index `i` lies in a fillable hole of mask `m`: a maximal `false` run
`[j, k)` (maximal: preceded by a `true` at `j - 1`, and ending at the end of
the mask or at a `true` at `k`) that immediately follows a `true` run and
has length at most `max_hole`. -/
def fillableIdx (m : List Bool) (mh : Nat) (i : Nat) : Prop :=
  ∃ j k, 1 ≤ j ∧ j ≤ i ∧ i < k ∧ k ≤ m.length ∧
    (∀ t, j ≤ t → t < k → m[t]? = some false) ∧
    m[j - 1]? = some true ∧
    (k = m.length ∨ m[k]? = some true) ∧
    k - j ≤ mh

/-! ## Claim theorems -/

/-- C7: `StepZoneDetector` on `value = [0,0,0,10,10,10]` with `diff_window = 1`,
explicit `diff_threshold = 5` and `min_size = 1` returns exactly one
transition, at index 3, and exactly the two zones `[0,3)` and `[3,6)`. -/
theorem C7_step_concrete :
    detect_transitions [0, 0, 0, 10, 10, 10] 1 (some 5) = [3] ∧
    make_step_zones [0, 0, 0, 10, 10, 10]
      (detect_transitions [0, 0, 0, 10, 10, 10] 1 (some 5)) 1 =
      [(0, 3), (3, 6)] := by
  with_unfolding_all decide

/-- C10: `StepZoneDetector` on an empty series — any `diff_window`, any
`min_size ≥ 1`, auto or explicit threshold — returns an empty transition
list and an empty zone list. -/
theorem C10_empty_series (dw ms : Nat) (t? : Option ℚ) (hms : 1 ≤ ms) :
    detect_transitions ([] : List ℚ) dw t? = [] ∧
    make_step_zones ([] : List ℚ) (detect_transitions ([] : List ℚ) dw t?) ms
      = [] := by
  have hd : detect_transitions ([] : List ℚ) dw t? = [] := by
    simp [detect_transitions, edgesOf, cutsLoop]
  refine ⟨hd, ?_⟩
  rw [hd]
  have hne : ms ≠ 0 := by omega
  simp [make_step_zones, List.filter, hne]

/-- C10 witness: the empty-series theorem at `diff_window = 3`,
`min_size = 1`, auto threshold. -/
theorem C10_empty_series_witness :
    1 ≤ 1 ∧
    (detect_transitions ([] : List ℚ) 3 none = [] ∧
     make_step_zones ([] : List ℚ) (detect_transitions ([] : List ℚ) 3 none) 1
       = []) :=
  ⟨Nat.le_refl 1, C10_empty_series 3 1 none (Nat.le_refl 1)⟩

/-- C4 counterexample: the step detector performs no parameter validation —
with the invalid `min_size = 0` the detection pass is not rejected but runs
to completion and returns a full transition and zone list. -/
theorem C4_cex_no_validation :
    make_step_zones [0, 0, 0, 10, 10, 10]
      (detect_transitions [0, 0, 0, 10, 10, 10] 1 (some 5)) 0 =
      [(0, 3), (3, 6)] := by
  with_unfolding_all decide

/-- C4 amended: the flat-zone parameter prompt (`get_user_thresholds`)
accepts a triple exactly when `window_size ≥ 1`, `threshold ≥ 0` and
`min_size ≥ 1`, rejecting a violating value before any detection
computation; the step detector (`FindFlats2.py`) performs no parameter
validation — an invalid `min_size` is accepted and the pass still produces
its zones. -/
theorem C4_amended_validation (w : Int) (tol : ℚ) (ms : Int) :
    ((threshold_checks w tol ms).isOk = true ↔ 1 ≤ w ∧ 0 ≤ tol ∧ 1 ≤ ms) ∧
    make_step_zones [0, 0, 0, 10, 10, 10]
      (detect_transitions [0, 0, 0, 10, 10, 10] 1 (some 5)) 0 =
      [(0, 3), (3, 6)] := by
  constructor
  · unfold threshold_checks
    split_ifs with h1 h2 h3
    · constructor
      · intro h
        simp [Except.isOk, Except.toBool] at h
      · rintro ⟨hw, -, -⟩
        omega
    · constructor
      · intro h
        simp [Except.isOk, Except.toBool] at h
      · rintro ⟨-, htol, -⟩
        exact absurd htol (not_le.mpr h2)
    · constructor
      · intro h
        simp [Except.isOk, Except.toBool] at h
      · rintro ⟨-, -, hm⟩
        omega
    · constructor
      · intro _
        exact ⟨by omega, le_of_not_lt h2, by omega⟩
      · intro _
        rfl
  · with_unfolding_all decide

/-- C8: in auto mode the threshold the step detector uses is
`3 × median(smoothed_deriv)` — whenever the median of the smoothed absolute
derivative is defined, auto mode selects exactly that threshold and computes
the very same transitions as an explicit `3 × median` call. -/
theorem C8_auto_threshold (xs : List ℚ) (dw : Nat) (m : ℚ)
    (h : pandasMedian ((smoothOf xs dw).filterMap id) = some m) :
    usedThreshold xs dw none = some (m * 3) ∧
    detect_transitions xs dw none = detect_transitions xs dw (some (m * 3)) := by
  have ht : usedThreshold xs dw none = some (m * 3) := by
    simp [usedThreshold, h]
  have ht' : usedThreshold xs dw (some (m * 3)) = usedThreshold xs dw none := by
    simp [usedThreshold, h]
  refine ⟨ht, ?_⟩
  unfold detect_transitions edgesOf
  simp only [ht']

/-- C8 witness: on `[0,0,10,10]` with `diff_window = 1` the median of the
smoothed derivative is 0 and auto mode equals the explicit `0 × 3` run. -/
theorem C8_auto_threshold_witness :
    pandasMedian ((smoothOf [0, 0, 10, 10] 1).filterMap id) = some 0 ∧
    (usedThreshold [0, 0, 10, 10] 1 none = some (0 * 3) ∧
     detect_transitions [0, 0, 10, 10] 1 none =
       detect_transitions [0, 0, 10, 10] 1 (some (0 * 3))) :=
  ⟨by with_unfolding_all decide,
   C8_auto_threshold [0, 0, 10, 10] 1 0 (by with_unfolding_all decide)⟩

/-- C6: on `raw_time = ["1","2","bad","4"]`, the `AlphaGUI(CTK).py` ELAPSED
branch drops the failed row 2 together with its aligned value entry (length
3, no placeholder), while the `AlphaAnalysisApp.py` ELAPSED branch keeps all
4 rows with a `NaN` placeholder time at index 2 — the code of
`AlphaAnalysisApp.py` diverges from the claimed (and sibling-implemented)
drop behaviour. -/
theorem C6_elapsed_mode :
    elapsed_ctk ["1", "2", "bad", "4"] [10, 20, 30, 40] =
      [(1, 10), (2, 20), (4, 40)] ∧
    (elapsed_ctk ["1", "2", "bad", "4"] [10, 20, 30, 40]).length = 3 ∧
    (elapsed_app ["1", "2", "bad", "4"] [10, 20, 30, 40]).map Prod.fst =
      [some 1, some 2, none, some 4] ∧
    (elapsed_app ["1", "2", "bad", "4"] [10, 20, 30, 40]).length = 4 := by
  have h1 : to_numeric "1" = some 1 := by decide
  have h2 : to_numeric "2" = some 2 := by decide
  have h3 : to_numeric "bad" = none := by decide
  have h4 : to_numeric "4" = some 4 := by decide
  refine ⟨?_, ?_, ?_, ?_⟩ <;>
    simp [elapsed_ctk, elapsed_app, h1, h2, h3, h4]

/-- C9: for a zone slicing `N ≥ 2` samples the spectral computation
succeeds, and its frequency and amplitude sequences both have length
`N / 2 + 1`. -/
theorem C9_spectrum_lengths (rows : List (ℚ × ℝ)) (a b : ℚ)
    (h : 2 ≤ (sliceRows rows a b).length) :
    ∃ s, analyze rows a b = Except.ok s ∧
      s.freqs.length = (sliceRows rows a b).length / 2 + 1 ∧
      s.amps.length = (sliceRows rows a b).length / 2 + 1 := by
  have hne : ¬ (sliceRows rows a b).length = 0 := by omega
  unfold analyze
  simp only [if_neg hne]
  refine ⟨_, rfl, ?_, ?_⟩
  · simp only [rfftfreq, List.length_map, List.length_range]
  · simp only [rfft, List.length_map, List.length_range]

/-- C9 witness: a two-row table, zone `[0, 1]`, both sequences of length
`2 / 2 + 1 = 2`. -/
theorem C9_spectrum_lengths_witness :
    2 ≤ (sliceRows [((0 : ℚ), (1 : ℝ)), ((1 : ℚ), (2 : ℝ))] 0 1).length ∧
    (∃ s, analyze [((0 : ℚ), (1 : ℝ)), ((1 : ℚ), (2 : ℝ))] 0 1 = Except.ok s ∧
      s.freqs.length =
        (sliceRows [((0 : ℚ), (1 : ℝ)), ((1 : ℚ), (2 : ℝ))] 0 1).length / 2 + 1 ∧
      s.amps.length =
        (sliceRows [((0 : ℚ), (1 : ℝ)), ((1 : ℚ), (2 : ℝ))] 0 1).length / 2 + 1) :=
  ⟨by with_unfolding_all decide,
   C9_spectrum_lengths [((0 : ℚ), (1 : ℝ)), ((1 : ℚ), (2 : ℝ))] 0 1
     (by with_unfolding_all decide)⟩

/-- C5 counterexample: a zone slicing exactly one sample is not rejected —
`_confirm` computes `dt` as the mean of an empty `diff` (`NaN`) and still
produces a one-bin spectrum, contradicting the claimed `InsufficientSamples`
failure and the claim that no spectrum is ever produced from fewer than 2
samples. -/
theorem C5_cex_one_sample_spectrum :
    (analyze [((0 : ℚ), (5 : ℝ))] 0 0).isOk = true ∧
    (analyze [((0 : ℚ), (5 : ℝ))] 0 0).toOption.map
      (fun s => (s.freqs.length, s.amps.length)) = some (1, 1) ∧
    dtOf [(0 : ℚ)] = none := by
  have hs : sliceRows [((0 : ℚ), (5 : ℝ))] 0 0 = [((0 : ℚ), (5 : ℝ))] := by
    simp [sliceRows]
  refine ⟨?_, ?_, ?_⟩
  · unfold analyze
    rw [hs]
    simp [Except.isOk, Except.toBool]
  · unfold analyze
    rw [hs]
    simp [Except.toOption, rfftfreq, rfft, List.length_map, List.length_range]
  · simp [dtOf]

/-- C5 amended: the empty-slice guard is the only guard — an empty zone
slice fails with the `Zone Error` (`EmptyZone`) path, while a one-sample
slice is not rejected: its mean sample spacing is undefined (`NaN`) and a
one-bin spectrum is produced anyway. -/
theorem C5_amended_guards (rows : List (ℚ × ℝ)) (a b : ℚ) :
    ((sliceRows rows a b).length = 0 →
      analyze rows a b = Except.error ZoneErr.emptyZone) ∧
    ((sliceRows rows a b).length = 1 →
      (analyze rows a b).isOk = true ∧
      dtOf ((sliceRows rows a b).map Prod.fst) = none ∧
      (analyze rows a b).toOption.map
        (fun s => (s.freqs.length, s.amps.length)) = some (1, 1)) := by
  constructor
  · intro h0
    unfold analyze
    simp only [if_pos h0]
  · intro h1
    have hne : ¬ (sliceRows rows a b).length = 0 := by omega
    refine ⟨?_, ?_, ?_⟩
    · unfold analyze
      simp only [if_neg hne]
      rfl
    · simp [dtOf, h1]
    · unfold analyze
      simp only [if_neg hne]
      simp [Except.toOption, rfftfreq, rfft, List.length_map, List.length_range, h1]

/-- C5 amended witness: the two guards at concrete inputs — an empty table
(empty slice) and a single-row table (one-sample slice). -/
theorem C5_amended_guards_witness :
    analyze ([] : List (ℚ × ℝ)) 0 0 = Except.error ZoneErr.emptyZone ∧
    ((analyze [((0 : ℚ), (9 : ℝ))] 0 0).isOk = true ∧
     dtOf ((sliceRows [((0 : ℚ), (9 : ℝ))] 0 0).map Prod.fst) = none ∧
     (analyze [((0 : ℚ), (9 : ℝ))] 0 0).toOption.map
       (fun s => (s.freqs.length, s.amps.length)) = some (1, 1)) :=
  ⟨(C5_amended_guards [] 0 0).1 (by simp [sliceRows]),
   (C5_amended_guards [((0 : ℚ), (9 : ℝ))] 0 0).2 (by with_unfolding_all decide)⟩

/-- The trailing window at a valid position holds `min (i+1) w` samples. -/
theorem windowAt_length (w : Nat) (xs : List ℚ) (i : Nat) (hi : i < xs.length) :
    (windowAt w xs i).length = min (i + 1) w := by
  simp only [windowAt, List.length_drop, List.length_take]
  omega

/-- C1 counterexample: on `series = [5,5]` with `window_size = 2`,
`std_threshold = 0`, the rolling standard deviation at index 0 is undefined
(single-sample window), yet the candidate mask is `false` there — the
claimed "missing std counts as true" is violated by
`rolling_std.le(tol).fillna(False)`. -/
theorem C1_cex_missing_std_is_false :
    (detect_flat_mask [5, 5] 2 (0 : ℝ))[0]? = some false ∧
    (rollingStd 2 [5, 5])[0]? = some none := by
  have h0 : (0 : Nat) < ([5, 5] : List ℚ).length := by simp
  constructor
  · simp [detect_flat_mask, rollingStd, List.getElem?_map, List.getElem?_range,
      windowAt]
  · simp [rollingStd, List.getElem?_map, List.getElem?_range, windowAt]

/-- C1 amended: `mask[i] = true` iff the trailing rolling standard deviation
at `i` is defined and `≤ std_threshold`; an index whose rolling standard
deviation is missing/undefined (a window of fewer than 2 samples, i.e.
`min (i+1) window_size < 2`) has `mask[i] = false`, not `true`. -/
theorem C1_amended_mask_iff (xs : List ℚ) (w : Nat) (tol : ℝ) (i : Nat)
    (hi : i < xs.length) :
    ((detect_flat_mask xs w tol)[i]? = some true ↔
      ∃ s, (rollingStd w xs)[i]? = some (some s) ∧ s ≤ tol) ∧
    ((rollingStd w xs)[i]? = some none ↔ min (i + 1) w < 2) := by
  have hwin := windowAt_length w xs i hi
  by_cases hlen : (windowAt w xs i).length < 2
  · constructor
    · simp [detect_flat_mask, rollingStd, List.getElem?_map,
        List.getElem?_range, hi, if_pos hlen]
    · simp [rollingStd, List.getElem?_map, List.getElem?_range, hi,
        if_pos hlen]
      omega
  · constructor
    · simp [detect_flat_mask, rollingStd, List.getElem?_map,
        List.getElem?_range, hi, if_neg hlen]
    · simp [rollingStd, List.getElem?_map, List.getElem?_range, hi,
        if_neg hlen]
      omega

/-- C1 amended witness: the amended characterization at `series = [5,5]`,
`window_size = 2`, `std_threshold = 0`, index 0. -/
theorem C1_amended_mask_iff_witness :
    (0 : Nat) < ([5, 5] : List ℚ).length ∧
    (((detect_flat_mask [5, 5] 2 (0 : ℝ))[0]? = some true ↔
       ∃ s, (rollingStd 2 [5, 5])[0]? = some (some s) ∧ s ≤ (0 : ℝ)) ∧
     ((rollingStd 2 [5, 5])[0]? = some none ↔ min (0 + 1) 2 < 2)) :=
  ⟨by decide, C1_amended_mask_iff [5, 5] 2 (0 : ℝ) 0 (by decide)⟩

/-- Invariant of the `extract_zones` scan: starting at index `i` with
in-zone state `st` (any recorded start lying strictly before `i`), the
emitted zones are separated (`end < next start`), start no earlier than the
recorded start (resp. `i`), and are non-degenerate. -/
theorem extractAux_props : ∀ (l : List Bool) (i : Nat) (st : Option Nat),
    (∀ s, st = some s → s < i) →
    List.Pairwise (fun z w => z.2 < w.1) (extractAux l i st) ∧
    (∀ z ∈ extractAux l i st, st.getD i ≤ z.1 ∧ z.1 < z.2) := by
  intro l
  induction l with
  | nil =>
    intro i st hst
    cases st with
    | none => simp [extractAux]
    | some s =>
      refine ⟨by simp [extractAux], ?_⟩
      intro z hz
      simp only [extractAux, List.mem_singleton] at hz
      subst hz
      exact ⟨Nat.le_refl s, hst s rfl⟩
  | cons b rest ih =>
    intro i st hst
    cases st with
    | none =>
      cases b with
      | true =>
        rw [extractAux]
        have ihr := ih (i + 1) (some i) (by intro s hs; cases hs; omega)
        refine ⟨ihr.1, ?_⟩
        intro z hz
        have h := ihr.2 z hz
        simp only [Option.getD_some] at h
        simp only [Option.getD_none]
        exact h
      | false =>
        rw [extractAux]
        have ihr := ih (i + 1) none (by intro s hs; cases hs)
        refine ⟨ihr.1, ?_⟩
        intro z hz
        have h := ihr.2 z hz
        simp only [Option.getD_none] at h
        simp only [Option.getD_none]
        exact ⟨by omega, h.2⟩
    | some s =>
      have hs : s < i := hst s rfl
      cases b with
      | true =>
        rw [extractAux]
        have ihr := ih (i + 1) (some s) (by intro s2 hs2; cases hs2; omega)
        refine ⟨ihr.1, ?_⟩
        intro z hz
        exact ihr.2 z hz
      | false =>
        rw [extractAux]
        have ihr := ih (i + 1) none (by intro s2 hs2; cases hs2)
        constructor
        · refine List.pairwise_cons.mpr ⟨?_, ihr.1⟩
          intro w hw
          have h := ihr.2 w hw
          simp only [Option.getD_none] at h
          omega
        · intro z hz
          rcases List.mem_cons.mp hz with hz | hz
          · subst hz
            exact ⟨Nat.le_refl s, hs⟩
          · have h := ihr.2 z hz
            simp only [Option.getD_none] at h
            simp only [Option.getD_some]
            exact ⟨by omega, h.2⟩

/-- C2, flat half: whatever the mask, `extract_zones` followed by
`filter_zones_by_size` yields disjoint, start-increasing zones of length at
least `min_size`. -/
theorem flat_zones_ok (m : List Bool) (ms : Nat) :
    zonesOK (filter_zones_by_size (extract_zones m) ms) ms := by
  obtain ⟨hpw, hmem⟩ :=
    extractAux_props m 0 none (by intro s hs; cases hs)
  have hsub : List.Sublist (filter_zones_by_size (extract_zones m) ms)
      (extract_zones m) :=
    List.filter_sublist _
  have hpwf : List.Pairwise (fun z w => z.2 < w.1)
      (filter_zones_by_size (extract_zones m) ms) :=
    hpw.sublist hsub
  have hmemf : ∀ z ∈ filter_zones_by_size (extract_zones m) ms,
      z.1 < z.2 ∧ ms ≤ z.2 - z.1 := by
    intro z hz
    have hz' := List.mem_filter.mp hz
    have h1 : z.1 < z.2 := (hmem z hz'.1).2
    have h2 : (ms : Int) ≤ (z.2 : Int) - (z.1 : Int) :=
      of_decide_eq_true hz'.2
    exact ⟨h1, by omega⟩
  refine ⟨hpwf.imp (fun h => Nat.le_of_lt h), ?_, hmemf⟩
  refine hpwf.imp_of_mem ?_
  intro z w hz _ h
  exact Nat.lt_trans (hmemf z hz).1 h

/-- The first entry of `series.diff().abs()` is `NaN`. -/
theorem derivAbs_take_one (xs : List ℚ) (h : xs ≠ []) :
    (derivAbs xs).take 1 = [none] := by
  cases xs with
  | nil => exact absurd rfl h
  | cons a l =>
    simp [derivAbs, List.range_succ_eq_map]

/-- The smoothed derivative is `NaN` at index 0: its window sees only
`deriv[0] = NaN`, so no non-`NaN` observation is available. -/
theorem smoothOf_getD_zero (xs : List ℚ) (dw : Nat) (h : xs ≠ []) :
    (smoothOf xs dw).getD 0 none = none := by
  have hlen : 0 < (derivAbs xs).length := by
    cases xs with
    | nil => exact absurd rfl h
    | cons a l => simp [derivAbs]
  have hwin : windowAt dw (derivAbs xs) 0 = [none].drop (1 - dw) := by
    rw [windowAt, derivAbs_take_one xs h]
  rw [smoothOf, rollingMeanSkipNa]
  rw [List.getD_eq_getElem?_getD, List.getElem?_map]
  rw [List.getElem?_range (by simpa using hlen)]
  simp only [Option.map_some', Option.getD_some]
  rw [hwin]
  rcases Nat.eq_zero_or_pos (1 - dw) with h0 | h0
  · rw [h0]
    simp
  · have : (1 : Nat) ≤ 1 - dw := h0
    rw [List.drop_eq_nil_of_le (by simpa using this)]
    simp

/-- Every de-duplicated transition index is a strictly positive, in-range
position of the series. -/
theorem edgesOf_mem (xs : List ℚ) (dw : Nat) (t? : Option ℚ) :
    ∀ e ∈ edgesOf xs dw t?, 0 < e ∧ e < xs.length := by
  intro e he
  have he' := List.mem_filter.mp he
  have hrange : e < xs.length := List.mem_range.mp he'.1
  refine ⟨?_, hrange⟩
  rcases Nat.eq_zero_or_pos e with h0 | h0
  · subst h0
    exfalso
    have hne : xs ≠ [] := by
      intro hnil
      rw [hnil] at hrange
      simp at hrange
    rw [smoothOf_getD_zero xs dw hne] at he'
    simp at he'
  · exact h0

/-- The positions selected by the threshold comparison are strictly
increasing (they are a filtered `range`). -/
theorem edgesOf_pairwise (xs : List ℚ) (dw : Nat) (t? : Option ℚ) :
    List.Pairwise (· < ·) (edgesOf xs dw t?) :=
  (List.pairwise_lt_range _).sublist (List.filter_sublist _)

/-- The de-duplication loop keeps a strictly increasing subset of the edge
list. -/
theorem cutsLoop_props (dw : Nat) : ∀ (edges : List Nat) (st : Option Nat),
    List.Pairwise (· < ·) edges →
    (∀ e ∈ edges, ∀ l, st = some l → l < e) →
    List.Pairwise (· < ·) (cutsLoop dw st edges) ∧
    ∀ c ∈ cutsLoop dw st edges, c ∈ edges := by
  intro edges
  induction edges with
  | nil =>
    intro st _ _
    simp [cutsLoop]
  | cons idx rest ih =>
    intro st hpw hst
    have hpw' := List.pairwise_cons.mp hpw
    cases st with
    | none =>
      rw [cutsLoop]
      have ihr := ih (some idx) hpw'.2
        (by intro e he l hl; cases hl; exact hpw'.1 e he)
      constructor
      · refine List.pairwise_cons.mpr ⟨?_, ihr.1⟩
        intro c hc
        exact hpw'.1 c (ihr.2 c hc)
      · intro c hc
        rcases List.mem_cons.mp hc with hc | hc
        · exact hc ▸ List.mem_cons_self idx rest
        · exact List.mem_cons_of_mem idx (ihr.2 c hc)
    | some last =>
      rw [cutsLoop]
      by_cases hcond : (dw : Int) < (idx : Int) - (last : Int)
      · simp only [if_pos hcond]
        have ihr := ih (some idx) hpw'.2
          (by intro e he l hl; cases hl; exact hpw'.1 e he)
        constructor
        · refine List.pairwise_cons.mpr ⟨?_, ihr.1⟩
          intro c hc
          exact hpw'.1 c (ihr.2 c hc)
        · intro c hc
          rcases List.mem_cons.mp hc with hc | hc
          · exact hc ▸ List.mem_cons_self idx rest
          · exact List.mem_cons_of_mem idx (ihr.2 c hc)
      · simp only [if_neg hcond]
        have hlast : last < idx := hst idx (List.mem_cons_self idx rest) last rfl
        have ihr := ih (some last) hpw'.2
          (by intro e he l hl; cases hl; exact Nat.lt_trans hlast (hpw'.1 e he))
        exact ⟨ihr.1, fun c hc => List.mem_cons_of_mem idx (ihr.2 c hc)⟩

/-- The transition list of one step-detection pass is strictly increasing
and stays strictly inside `(0, len(series))`. -/
theorem detect_transitions_props (xs : List ℚ) (dw : Nat) (t? : Option ℚ) :
    List.Pairwise (· < ·) (detect_transitions xs dw t?) ∧
    ∀ c ∈ detect_transitions xs dw t?, 0 < c ∧ c < xs.length := by
  have h := cutsLoop_props dw (edgesOf xs dw t?) none
    (edgesOf_pairwise xs dw t?) (by intro e he l hl; cases hl)
  exact ⟨h.1, fun c hc => edgesOf_mem xs dw t? c (h.2 c hc)⟩

/-- Consecutive pairs of a `≤`-chained list: each pair is ordered, an
earlier pair ends no later than a later pair starts, and every pair starts
no earlier than the list head. -/
theorem zip_tail_pairwise : ∀ (l : List Nat), List.Chain' (· ≤ ·) l →
    List.Pairwise (fun (z : Nat × Nat) w => z.2 ≤ w.1) (l.zip l.tail) ∧
    (∀ z ∈ l.zip l.tail, z.1 ≤ z.2 ∧ ∀ x, l.head? = some x → x ≤ z.1)
  | [], _ => by simp
  | [a], _ => by simp
  | a :: b :: t, h => by
    have hab : a ≤ b := (List.chain'_cons.mp h).1
    have ih := zip_tail_pairwise (b :: t) (List.chain'_cons.mp h).2
    constructor
    · refine List.pairwise_cons.mpr ⟨?_, ih.1⟩
      intro w hw
      exact (ih.2 w hw).2 b rfl
    · intro z hz
      rcases List.mem_cons.mp hz with hz | hz
      · subst hz
        exact ⟨hab, by intro x hx; cases hx; exact Nat.le_refl a⟩
      · have := ih.2 z hz
        refine ⟨this.1, ?_⟩
        intro x hx
        cases hx
        exact Nat.le_trans hab (this.2 b rfl)

/-- The boundary list `[0] + transitions + [N]` of a step pass is
non-decreasing. -/
theorem all_pts_chain (xs : List ℚ) (dw : Nat) (t? : Option ℚ) :
    List.Chain' (· ≤ ·)
      (0 :: detect_transitions xs dw t? ++ [xs.length]) := by
  obtain ⟨hpw, hmem⟩ := detect_transitions_props xs dw t?
  rw [List.chain'_iff_pairwise]
  refine List.pairwise_cons.mpr ⟨?_, ?_⟩
  · intro x _
    exact Nat.zero_le x
  · refine List.pairwise_append.mpr ⟨hpw.imp (fun h => Nat.le_of_lt h), by simp, ?_⟩
    intro a ha b hb
    rw [List.mem_singleton] at hb
    subst hb
    exact Nat.le_of_lt (hmem a ha).2

/-- C2, step half: the zones built from one `detect_transitions` pass are
disjoint, start-increasing, and each at least `min_size` long. -/
theorem step_zones_ok (xs : List ℚ) (dw : Nat) (t? : Option ℚ) (ms : Nat)
    (hms : 1 ≤ ms) :
    zonesOK (make_step_zones xs (detect_transitions xs dw t?) ms) ms := by
  obtain ⟨hzip, hzmem⟩ :=
    zip_tail_pairwise _ (all_pts_chain xs dw t?)
  rw [make_step_zones]
  have hpwf : List.Pairwise (fun (z : Nat × Nat) w => z.2 ≤ w.1)
      (((0 :: detect_transitions xs dw t? ++ [xs.length]).zip
        (0 :: detect_transitions xs dw t? ++ [xs.length]).tail).filter
        (fun p => decide ((ms : Int) ≤ (p.2 : Int) - (p.1 : Int)))) :=
    hzip.sublist (List.filter_sublist _)
  have hmemf : ∀ z ∈ ((0 :: detect_transitions xs dw t? ++ [xs.length]).zip
      (0 :: detect_transitions xs dw t? ++ [xs.length]).tail).filter
      (fun p => decide ((ms : Int) ≤ (p.2 : Int) - (p.1 : Int))),
      z.1 < z.2 ∧ ms ≤ z.2 - z.1 := by
    intro z hz
    have hz' := List.mem_filter.mp hz
    have hle : z.1 ≤ z.2 := (hzmem z hz'.1).1
    have hint : (ms : Int) ≤ (z.2 : Int) - (z.1 : Int) :=
      of_decide_eq_true hz'.2
    exact ⟨by omega, by omega⟩
  refine ⟨hpwf, ?_, hmemf⟩
  refine hpwf.imp_of_mem ?_
  intro z w hz _ h
  exact Nat.lt_of_lt_of_le (hmemf z hz).1 h

/-- C2: the zone list of a detection pass — `FlatZoneDetector`'s
extract-then-filter on any mask, and `StepZoneDetector`'s zone construction
from its own transitions — is a list of mutually disjoint half-open
intervals, strictly increasing in start index, each of length at least
`min_size`. -/
theorem C2_zone_invariants (mask : List Bool) (xs : List ℚ) (dw ms : Nat)
    (t? : Option ℚ) (hms : 1 ≤ ms) :
    zonesOK (filter_zones_by_size (extract_zones mask) ms) ms ∧
    zonesOK (make_step_zones xs (detect_transitions xs dw t?) ms) ms :=
  ⟨flat_zones_ok mask ms, step_zones_ok xs dw t? ms hms⟩

/-- C2 witness: the invariants at a concrete mask and the concrete step
series of the C7 scenario, with `min_size = 1`. -/
theorem C2_zone_invariants_witness :
    1 ≤ 1 ∧
    (zonesOK (filter_zones_by_size (extract_zones [true, true, false]) 1) 1 ∧
     zonesOK (make_step_zones [0, 0, 0, 10, 10, 10]
       (detect_transitions [0, 0, 0, 10, 10, 10] 1 (some 5)) 1) 1) :=
  ⟨Nat.le_refl 1,
   C2_zone_invariants [true, true, false] [0, 0, 0, 10, 10, 10] 1 1 (some 5)
     (Nat.le_refl 1)⟩

/-- Lookup in an all-`true` list. -/
theorem getElem?_all_true (l : List Bool) (hall : ∀ x ∈ l, x = true)
    (i : Nat) (hi : i < l.length) : l[i]? = some true := by
  rw [List.getElem?_eq_getElem hi]
  exact congrArg some (hall _ (List.getElem_mem hi))

/-- Lookup in an all-`false` list. -/
theorem getElem?_all_false (l : List Bool) (hall : ∀ x ∈ l, x = false)
    (i : Nat) (hi : i < l.length) : l[i]? = some false := by
  rw [List.getElem?_eq_getElem hi]
  exact congrArg some (hall _ (List.getElem_mem hi))

/-- Every element kept by `takeWhile (fun b => b)` is `true`. -/
theorem mem_takeWhile_id_true (l : List Bool) :
    ∀ x ∈ l.takeWhile (fun b => b), x = true := by
  intro x hx
  have := List.mem_takeWhile_imp hx
  simpa using this

/-- Every element kept by `takeWhile (fun b => !b)` is `false`. -/
theorem mem_takeWhile_not_false (l : List Bool) :
    ∀ x ∈ l.takeWhile (fun b => !b), x = false := by
  intro x hx
  have := List.mem_takeWhile_imp hx
  simpa using this

/-- A non-empty suffix left by `dropWhile (fun b => !b)` starts with
`true`. -/
theorem dropWhile_not_head : ∀ (l : List Bool),
    l.dropWhile (fun b => !b) ≠ [] →
    (l.dropWhile (fun b => !b))[0]? = some true
  | [], h => absurd rfl h
  | a :: t, h => by
    rw [List.dropWhile_cons]
    by_cases ha : (!a) = true
    · rw [if_pos ha]
      refine dropWhile_not_head t ?_
      intro hnil
      apply h
      rw [List.dropWhile_cons, if_pos ha, hnil]
    · rw [if_neg ha]
      have haa : a = true := by simpa using ha
      subst haa
      simp

/-- `fillHoles` rewrites mask values in place: the length is unchanged. -/
theorem fillHoles_length (mh : Nat) : ∀ (m : List Bool),
    (fillHoles mh m).length = m.length
  | [] => by rw [fillHoles]
  | false :: rest => by
    rw [fillHoles, List.length_cons, List.length_cons,
      fillHoles_length mh rest]
  | true :: rest => by
    rw [fillHoles]
    have h1 := List.takeWhile_append_dropWhile (fun b => b) rest
    have h2 := List.takeWhile_append_dropWhile (fun b => !b)
      (rest.dropWhile (fun b => b))
    have hrec := fillHoles_length mh
      ((rest.dropWhile (fun b => b)).dropWhile (fun b => !b))
    by_cases hz : ((rest.dropWhile (fun b => b)).takeWhile
        (fun b => !b)).length ≤ mh
    · simp only [if_pos hz, List.length_append, List.length_cons,
        List.length_replicate, hrec]
      have e1 := congrArg List.length h1
      have e2 := congrArg List.length h2
      simp only [List.length_append] at e1 e2
      omega
    · simp only [if_neg hz, List.length_append, List.length_cons, hrec]
      have e1 := congrArg List.length h1
      have e2 := congrArg List.length h2
      simp only [List.length_append] at e1 e2
      omega
termination_by m => m.length
decreasing_by
  all_goals
    simp only [List.length_cons]
    first
    | omega
    | · have ha := length_dropWhile_le (fun b => !b)
          (rest.dropWhile (fun b => b))
        have hb := length_dropWhile_le (fun b => b) rest
        omega

/-- Lookup past a prefix. -/
theorem getElem?_append_shift (P s : List α) (t : Nat) :
    (P ++ s)[P.length + t]? = s[t]? := by
  rw [List.getElem?_append_right (by omega)]
  congr 1
  omega

/-- A fillable hole at a position inside the suffix `s` of `P ++ s` is
exactly a fillable hole of `s`, provided the hole cannot reach back into
`P` — either because `P` is all `false` (so no `true` predecessor exists
there) or because the suffix starts with `true` (blocking any all-`false`
run from crossing the boundary). -/
theorem fillable_shift (P s : List Bool) (mh r : Nat) (hr : r < s.length)
    (hP : (∀ t, t < P.length → (P ++ s)[t]? = some false) ∨
      (P ++ s)[P.length]? = some true) :
    fillableIdx (P ++ s) mh (P.length + r) ↔ fillableIdx s mh r := by
  have hlen : (P ++ s).length = P.length + s.length := by simp
  constructor
  · rintro ⟨j, k, hj1, hji, hik, hkm, hall, hprev, hright, hsize⟩
    have hoff : P.length < j := by
      by_contra hle
      push_neg at hle
      rcases hP with hPf | hPh
      · have hf := hPf (j - 1) (by omega)
        rw [hprev] at hf
        simp at hf
      · have hf := hall P.length (by omega) (by omega)
        rw [hPh] at hf
        simp at hf
    refine ⟨j - P.length, k - P.length, by omega, by omega, by omega,
      by omega, ?_, ?_, ?_, by omega⟩
    · intro t ht1 ht2
      have hf := hall (P.length + t) (by omega) (by omega)
      rwa [getElem?_append_shift] at hf
    · have hf := hprev
      rw [show j - 1 = P.length + (j - P.length - 1) from by omega] at hf
      rwa [getElem?_append_shift] at hf
    · rcases hright with hk | hk
      · left
        omega
      · right
        rw [show k = P.length + (k - P.length) from by omega] at hk
        rwa [getElem?_append_shift] at hk
  · rintro ⟨j, k, hj1, hji, hik, hkm, hall, hprev, hright, hsize⟩
    refine ⟨P.length + j, P.length + k, by omega, by omega, by omega,
      by omega, ?_, ?_, ?_, by omega⟩
    · intro t ht1 ht2
      rw [show t = P.length + (t - P.length) from by omega,
        getElem?_append_shift]
      exact hall (t - P.length) (by omega) (by omega)
    · rw [show P.length + j - 1 = P.length + (j - 1) from by omega,
        getElem?_append_shift]
      exact hprev
    · rcases hright with hk | hk
      · left
        omega
      · right
        rw [getElem?_append_shift]
        exact hk

/-- Positional characterization of the hole-filling pass: an index is `true`
after the pass iff it was `true` already or it lies inside a maximal `false`
run that immediately follows a `true` run and has length at most
`max_hole`. -/
theorem fillHoles_getElem? (mh : Nat) : ∀ (m : List Bool) (i : Nat),
    i < m.length →
    ((fillHoles mh m)[i]? = some true ↔
      (m[i]? = some true ∨ fillableIdx m mh i))
  | [], i, hi => by simp at hi
  | false :: rest, i, hi => by
    rw [fillHoles]
    cases i with
    | zero =>
      simp only [List.getElem?_cons_zero]
      constructor
      · intro h
        simp at h
      · rintro (h | ⟨j, k, hj1, hji, -⟩)
        · simp at h
        · omega
    | succ r =>
      have hr : r < rest.length := by
        simp only [List.length_cons] at hi
        omega
      rw [List.getElem?_cons_succ, List.getElem?_cons_succ,
        fillHoles_getElem? mh rest r hr]
      have hs := fillable_shift [false] rest mh r hr
        (Or.inl (by
          intro t ht
          simp only [List.length_cons, List.length_nil] at ht
          rw [show t = 0 from by omega]
          simp))
      simp only [List.singleton_append, List.length_cons, List.length_nil]
        at hs
      rw [show 1 + r = r + 1 from by omega] at hs
      exact or_congr Iff.rfl hs.symm
  | true :: rest, i, hi => by
    rw [fillHoles]
    have hones := mem_takeWhile_id_true rest
    have hzeros := mem_takeWhile_not_false (rest.dropWhile (fun b => b))
    have hsplit1 := List.takeWhile_append_dropWhile (fun b => b) rest
    have hsplit2 := List.takeWhile_append_dropWhile (fun b => !b)
      (rest.dropWhile (fun b => b))
    -- abbreviations
    set ones := rest.takeWhile (fun b => b) with hones_def
    set rest1 := rest.dropWhile (fun b => b) with hrest1_def
    set zeros := rest1.takeWhile (fun b => !b) with hzeros_def
    set rest2 := rest1.dropWhile (fun b => !b) with hrest2_def
    set no := ones.length with hno_def
    set nz := zeros.length with hnz_def
    -- the mask decomposes as P ++ rest2 with P = (true :: ones) ++ zeros
    have hm : true :: rest = ((true :: ones) ++ zeros) ++ rest2 := by
      rw [List.append_assoc, hsplit2, List.cons_append, hsplit1]
    have hPlen : ((true :: ones) ++ zeros).length = 1 + no + nz := by
      simp [hno_def, hnz_def]
      omega
    have hmlen : (true :: rest).length = 1 + no + nz + rest2.length := by
      rw [hm]
      simp [hno_def, hnz_def]
      omega
    -- the prefix of the mask: `true` up to `no`, `false` strictly after
    have hmt : ∀ t, t < 1 + no → (true :: rest)[t]? = some true := by
      intro t ht
      rw [hm, List.getElem?_append_left (by
        rw [List.length_append, List.length_cons]
        omega)]
      rw [List.getElem?_append_left (by
        rw [List.length_cons]
        omega)]
      refine getElem?_all_true _ ?_ t (by simp [hno_def] at ht ⊢; omega)
      intro x hx
      rcases List.mem_cons.mp hx with hx | hx
      · exact hx
      · exact hones x hx
    have hmz : ∀ t, 1 + no ≤ t → t < 1 + no + nz →
        (true :: rest)[t]? = some false := by
      intro t ht1 ht2
      rw [hm, List.getElem?_append_left (by omega)]
      rw [List.getElem?_append_right (by
        rw [List.length_cons]
        omega)]
      refine getElem?_all_false _ hzeros _ (by
        simp only [List.length_cons, hnz_def] at *
        omega)
    have hms : ∀ t, (true :: rest)[1 + no + nz + t]? = rest2[t]? := by
      intro t
      rw [hm, show 1 + no + nz + t = ((true :: ones) ++ zeros).length + t from
        by omega]
      exact getElem?_append_shift _ _ t
    -- the filled mask decomposes the same way, with fz in place of zeros
    have hflen : ∀ (fz : List Bool), fz.length = nz →
        ((true :: ones) ++ fz).length = 1 + no + nz := by
      intro fz hfz
      simp [hfz, hno_def]
      omega
    by_cases hcmp : nz ≤ mh
    · -- the hole after the leading true run is filled
      rw [if_pos hcmp, List.append_assoc]
      have hq : (true :: ones) ++ (List.replicate nz true ++
          fillHoles mh rest2) =
          ((true :: ones) ++ List.replicate nz true) ++ fillHoles mh rest2 :=
        (List.append_assoc _ _ _).symm
      have hqt : ∀ t, t < 1 + no + nz →
          ((true :: ones) ++ (List.replicate nz true ++ fillHoles mh rest2))[t]?
            = some true := by
        intro t ht
        by_cases ht1 : t < 1 + no
        · rw [List.getElem?_append_left (by
            rw [List.length_cons]
            omega)]
          refine getElem?_all_true _ ?_ t (by simp [hno_def] at ht1 ⊢; omega)
          intro x hx
          rcases List.mem_cons.mp hx with hx | hx
          · exact hx
          · exact hones x hx
        · rw [List.getElem?_append_right (by
            rw [List.length_cons]
            omega)]
          rw [List.getElem?_append_left (by
            rw [List.length_replicate, List.length_cons]
            omega)]
          refine getElem?_all_true _ ?_ _ (by
            rw [List.length_replicate, List.length_cons]
            omega)
          intro x hx
          exact List.eq_of_mem_replicate hx
      by_cases hreg : i < 1 + no + nz
      · -- inside the prefix: everything is true after the fill
        rw [hqt i hreg]
        constructor
        · intro _
          by_cases ht1 : i < 1 + no
          · exact Or.inl (hmt i ht1)
          · -- i is in the filled hole: exhibit it
            refine Or.inr ⟨1 + no, 1 + no + nz, by omega, by omega, by omega,
              by omega, ?_, ?_, ?_, by omega⟩
            · intro t htl htr
              exact hmz t htl htr
            · rw [show 1 + no - 1 = no from by omega]
              exact hmt no (by omega)
            · rcases Nat.eq_zero_or_pos rest2.length with h2 | h2
              · left
                omega
              · right
                have := hms 0
                rw [Nat.add_zero] at this
                rw [this]
                exact dropWhile_not_head rest1 (by
                  rw [← hrest2_def]
                  intro hnil
                  rw [hnil] at h2
                  simp at h2)
        · intro _
          rfl
      · -- inside the recursive suffix
        have hr2 : i - (1 + no + nz) < rest2.length := by omega
        have hi2 : (1 + no + nz) + (i - (1 + no + nz)) = i := by omega
        have hfs : ((true :: ones) ++ (List.replicate nz true ++
            fillHoles mh rest2))[i]? =
            (fillHoles mh rest2)[i - (1 + no + nz)]? := by
          rw [hq]
          have hsh := getElem?_append_shift
            ((true :: ones) ++ List.replicate nz true) (fillHoles mh rest2)
            (i - (1 + no + nz))
          rw [show ((true :: ones) ++ List.replicate nz true).length +
              (i - (1 + no + nz)) = i from by
            rw [List.length_append, List.length_replicate, List.length_cons]
            omega] at hsh
          exact hsh
        rw [hfs, fillHoles_getElem? mh rest2 (i - (1 + no + nz)) hr2]
        have hshift := fillable_shift ((true :: ones) ++ zeros) rest2 mh
          (i - (1 + no + nz)) hr2
          (Or.inr (by
            rw [← hm, hPlen]
            have := hms 0
            rw [Nat.add_zero] at this
            rw [this]
            exact dropWhile_not_head rest1 (by
              rw [← hrest2_def]
              intro hnil
              rw [hnil] at hr2
              simp at hr2)))
        rw [← hm, hPlen, hi2] at hshift
        rw [← hms (i - (1 + no + nz)), hi2]
        exact or_congr Iff.rfl hshift.symm
    · -- the hole is too long: it stays false
      rw [if_neg hcmp, List.append_assoc]
      have hq : (true :: ones) ++ (zeros ++ fillHoles mh rest2) =
          ((true :: ones) ++ zeros) ++ fillHoles mh rest2 :=
        (List.append_assoc _ _ _).symm
      by_cases hreg1 : i < 1 + no
      · -- leading true region: unchanged
        have hft : ((true :: ones) ++ (zeros ++ fillHoles mh rest2))[i]? =
            some true := by
          rw [List.getElem?_append_left (by
            rw [List.length_cons]
            omega)]
          refine getElem?_all_true _ ?_ i (by simp [hno_def] at hreg1 ⊢; omega)
          intro x hx
          rcases List.mem_cons.mp hx with hx | hx
          · exact hx
          · exact hones x hx
        rw [hft]
        constructor
        · intro _
          exact Or.inl (hmt i hreg1)
        · intro _
          rfl
      · by_cases hreg2 : i < 1 + no + nz
        · -- unfilled hole: false on both sides, and not fillable
          have hff : ((true :: ones) ++ (zeros ++ fillHoles mh rest2))[i]? =
              some false := by
            rw [List.getElem?_append_right (by
              rw [List.length_cons]
              omega)]
            rw [List.getElem?_append_left (by
              rw [List.length_cons]
              omega)]
            refine getElem?_all_false _ hzeros _ (by
              rw [List.length_cons]
              omega)
          rw [hff]
          constructor
          · intro h
            simp at h
          · rintro (h | ⟨j, k, hj1, hji, hik, hkm, hall, hprev, hright,
              hsize⟩)
            · rw [hmz i (by omega) hreg2] at h
              simp at h
            · -- the hole must be exactly [1+no, 1+no+nz): too long
              exfalso
              have hrest2ne : 0 < rest2.length → rest2[0]? = some true := by
                intro h2
                exact dropWhile_not_head rest1 (by
                  rw [← hrest2_def]
                  intro hnil
                  rw [hnil] at h2
                  simp at h2)
              have hj_lb : 1 + no ≤ j := by
                by_contra hlt
                push_neg at hlt
                have hf := hall j (Nat.le_refl j) (by omega)
                rw [hmt j (by omega)] at hf
                simp at hf
              have hj_ub : j ≤ 1 + no := by
                by_contra hlt
                push_neg at hlt
                have hf := hmz (j - 1) (by omega) (by omega)
                rw [hprev] at hf
                simp at hf
              have hmlen' : (true :: rest).length = 1 + no + nz +
                  rest2.length := hmlen
              have hk_ub : k ≤ 1 + no + nz := by
                by_contra hlt
                push_neg at hlt
                have hf := hall (1 + no + nz) (by omega) (by omega)
                have h2 : 0 < rest2.length := by omega
                have := hms 0
                rw [Nat.add_zero] at this
                rw [this, hrest2ne h2] at hf
                simp at hf
              have hk_lb : 1 + no + nz ≤ k := by
                by_contra hlt
                push_neg at hlt
                rcases hright with hk | hk
                · omega
                · rw [hmz k (by omega) (by omega)] at hk
                  simp at hk
              omega
        · -- recursive suffix: same as in the filled branch
          have hi' : i < 1 + no + nz + rest2.length := by
            rw [← hmlen]
            exact hi
          have hr2 : i - (1 + no + nz) < rest2.length := by omega
          have hi2 : (1 + no + nz) + (i - (1 + no + nz)) = i := by omega
          have hfs : ((true :: ones) ++ (zeros ++ fillHoles mh rest2))[i]? =
              (fillHoles mh rest2)[i - (1 + no + nz)]? := by
            rw [hq]
            have hsh := getElem?_append_shift ((true :: ones) ++ zeros)
              (fillHoles mh rest2) (i - (1 + no + nz))
            rw [show ((true :: ones) ++ zeros).length +
                (i - (1 + no + nz)) = i from by
              rw [hPlen]
              omega] at hsh
            exact hsh
          rw [hfs, fillHoles_getElem? mh rest2 (i - (1 + no + nz)) hr2]
          have hshift := fillable_shift ((true :: ones) ++ zeros) rest2 mh
            (i - (1 + no + nz)) hr2
            (Or.inr (by
              rw [← hm, hPlen]
              have := hms 0
              rw [Nat.add_zero] at this
              rw [this]
              exact dropWhile_not_head rest1 (by
                rw [← hrest2_def]
                intro hnil
                rw [hnil] at hr2
                simp at hr2)))
          rw [← hm, hPlen, hi2] at hshift
          rw [← hms (i - (1 + no + nz)), hi2]
          exact or_congr Iff.rfl hshift.symm
termination_by m => m.length
decreasing_by
  all_goals
    simp only [List.length_cons]
    first
    | omega
    | · have ha := length_dropWhile_le (fun b => !b)
          (rest.dropWhile (fun b => b))
        have hb := length_dropWhile_le (fun b => b) rest
        omega

/-- C3: `clean_mask` runs hole-filling strictly before island-removal (the
island pass operates on the hole-filled array), and the single left-to-right
hole-filling sweep flips a position to `true` exactly when it was already
`true` or it lies in a maximal `false` run of the ORIGINAL mask that
immediately follows a `true` run and has length at most `max_hole` —
the characterization is in terms of the input mask's runs, so the sweep is
applied once and not transitively re-applied to regions it has filled. -/
theorem C3_hole_filling (m : List Bool) (mh mi i : Nat) (hi : i < m.length) :
    clean_mask m mh mi = removeIslands mi (fillHoles mh m) ∧
    ((fillHoles mh m)[i]? = some true ↔
      (m[i]? = some true ∨ fillableIdx m mh i)) :=
  ⟨rfl, fillHoles_getElem? mh m i hi⟩

/-- C3 witness: the characterization at the mask `[true, false, true]` with
`max_hole = 1`, index 1 (the single-sample hole). -/
theorem C3_hole_filling_witness :
    1 < ([true, false, true] : List Bool).length ∧
    (clean_mask [true, false, true] 1 0 =
      removeIslands 0 (fillHoles 1 [true, false, true]) ∧
     ((fillHoles 1 [true, false, true])[1]? = some true ↔
       (([true, false, true] : List Bool)[1]? = some true ∨
        fillableIdx [true, false, true] 1 1))) :=
  ⟨by decide, C3_hole_filling [true, false, true] 1 0 1 (by decide)⟩

end DualFreq
